import Mathlib

/-!
Verification of the font glyph cache and kerning-table builder of
`vispy/fonts/_freetype.py`: the functions `_load_font` and `_load_glyph`,
shallowly embedded over association lists standing for Python dicts
(insertion-ordered, unique keys).  The freetype face is modelled as a pure
record of its observable operations (`load_char`, `get_kerning`); the 26.6
fixed-point conversions `x / 64.` are carried out in `ℚ`.
-/

namespace Vispy

/-- Python dict lookup `d[k]` (`none` = `KeyError` / `k not in d`):
the value at the first matching key. -/
def dictGet {κ α : Type} [DecidableEq κ] : List (κ × α) → κ → Option α
  | [], _ => none
  | (k, v) :: rest, k' => if k = k' then some v else dictGet rest k'

/-- Python dict assignment `d[k] = v`: replace in place when the key is
present, otherwise append at the end (insertion order). -/
def dictSet {κ α : Type} [DecidableEq κ] : List (κ × α) → κ → α → List (κ × α)
  | [], k, v => [(k, v)]
  | (k', v') :: rest, k, v =>
    if k' = k then (k', v) :: rest else (k', v') :: dictSet rest k v

/-- The insertion-ordered key list of a dict (`list(d.keys())`). -/
def keysOf {κ α : Type} (d : List (κ × α)) : List κ := d.map Prod.fst

/-- The freetype glyph slot as read by `_load_glyph` after `face.load_char`:
the native bitmap `buffer` with its logical `width` and row count `rows`,
the `bitmap_left` / `bitmap_top` offsets, and `advance.x` in 26.6 units. -/
structure GlyphSlot where
  buffer : List Nat
  width : Nat
  rows : Nat
  bitmapLeft : Int
  bitmapTop : Int
  advanceX : Int

/-- The sized freetype face used by `_load_glyph` (the resource
`_load_font` returns): `glyphs c` is the result of
`face.load_char(c, flags)` (`none` models the freetype error for a
missing glyph), `kern a b` is `face.get_kerning(a, b).x` in 26.6 units.
`set_char_size` re-asserts the same fixed size and has no observable
effect in this model. -/
structure FaceData where
  glyphs : Char → Option GlyphSlot
  kern : Char → Char → Int

/-- The glyph record built by `_load_glyph`:
`dict(char=char, offset=(left, top), bitmap=bitmap, advance=advance,
kerning={})`. -/
structure Glyph where
  char : Char
  offset : Int × Int
  bitmap : List (List Nat)
  advance : ℚ
  kerning : List (Char × ℚ)

abbrev GlyphDict := List (Char × Glyph)

/-- One entry per executed kerning assignment
`glyphs_dict[owner]['kerning'][key] = …`, recorded as `(owner, key)`. -/
abbrev KernTrace := List (Char × Char)

inductive GlyphError where
  | glyphLoadError
  | reshapeError
deriving DecidableEq

/-- The bitmap extraction of `_load_glyph`:
`bitmap = np.array(bitmap.buffer)`,
`w0 = bitmap.size // height if bitmap.size > 0 else 0`,
`bitmap.shape = (height, w0)`, `bitmap = bitmap[:, :width].astype(np.ubyte)`.
`none` models the `ZeroDivisionError` (`rows = 0` with a non-empty buffer)
and the reshape `ValueError` (`rows * w0 ≠ size`). -/
def reshape_bitmap (buffer : List Nat) (width rows : Nat) : Option (List (List Nat)) :=
  let size := buffer.length
  if 0 < size ∧ rows = 0 then none
  else
    let w0 := if 0 < size then size / rows else 0
    if rows * w0 = size then
      some ((List.range rows).map fun i =>
        (((buffer.drop (i * w0)).take w0).take width).map (· % 256))
    else none

/-- The aliased assignment `glyphs_dict[owner]['kerning'][key] = v`:
Python mutates the glyph dict object in place, which is the object stored
in `glyphs_dict`, so the update is performed through the dict. -/
def kernSet : GlyphDict → Char → Char → ℚ → GlyphDict
  | [], _, _, _ => []
  | (k, g) :: rest, owner, key, v =>
    if k = owner then (k, { g with kerning := dictSet g.kerning key v }) :: kernSet rest owner key v
    else (k, g) :: kernSet rest owner key v

/-- The kerning loop of `_load_glyph`, iterating over the keys `ks` of the
dict after insertion: for each `o`,
`glyph['kerning'][o] = face.get_kerning(o, char).x / 64.0` then
`other_glyph['kerning'][char] = face.get_kerning(char, o).x / 64.0`. -/
def kernSweep (face : FaceData) (c : Char) (ks : List Char) (d : GlyphDict) : GlyphDict :=
  ks.foldl (fun d o =>
    kernSet (kernSet d c o ((face.kern o c : ℚ) / 64)) o c ((face.kern c o : ℚ) / 64)) d

/-- The assignments the kerning loop executes, in execution order. -/
def sweepTrace (c : Char) (ks : List Char) : KernTrace :=
  ks.flatMap fun o => [(c, o), (o, c)]

/-- `_load_glyph(f, char, glyphs_dict)`: load and reshape the glyph bitmap,
build the glyph record, insert it with `glyphs_dict[char] = glyph`, then run
the kerning loop over `glyphs_dict.items()`.  The returned dict is the state
of `glyphs_dict` after the call (unchanged when an error is raised before
the insertion), together with the trace of kerning assignments. -/
def load_glyph (face : FaceData) (c : Char) (d : GlyphDict) :
    Except GlyphError Unit × GlyphDict × KernTrace :=
  match face.glyphs c with
  | none => (.error .glyphLoadError, d, [])
  | some slot =>
    match reshape_bitmap slot.buffer slot.width slot.rows with
    | none => (.error .reshapeError, d, [])
    | some bmp =>
      let g : Glyph :=
        { char := c, offset := (slot.bitmapLeft, slot.bitmapTop), bitmap := bmp,
          advance := (slot.advanceX : ℚ) / 64, kerning := [] }
      let d0 := dictSet d c g
      (.ok (), kernSweep face c (keysOf d0) d0, sweepTrace c (keysOf d0))

/-- Sequential `_load_glyph` calls on one glyph dict, starting from `d`;
an error aborts the sequence (the exception propagates). -/
def load_glyphs_from (face : FaceData) (d : GlyphDict) :
    List Char → Except GlyphError (GlyphDict × KernTrace)
  | [] => .ok (d, [])
  | c :: cs =>
    match load_glyph face c d with
    | (.error e, _, _) => .error e
    | (.ok _, d1, tr1) =>
      match load_glyphs_from face d1 cs with
      | .error e => .error e
      | .ok (d2, tr2) => .ok (d2, tr1 ++ tr2)

/-- Loading a list of characters into one fresh font instance. -/
def load_glyphs (face : FaceData) (cs : List Char) :
    Except GlyphError (GlyphDict × KernTrace) :=
  load_glyphs_from face [] cs

/-- A constructed `Face(fname)` rasterizer resource; `id` is a construction
counter so that distinct constructions are distinguishable instances. -/
structure FaceInst where
  id : Nat
  fname : String
deriving DecidableEq

/-- Externally visible side effects of `_load_font`: a call to the
`find_font` resolver, and a `Face(fname)` resource construction. -/
inductive FontEffect where
  | resolve (family : String) (size : Nat) (bold italic : Bool)
  | construct (fname : String)
deriving DecidableEq

inductive FontError where
  | fontNotFoundError
deriving DecidableEq

/-- The process-wide `_font_dict` cache plus the construction counter. -/
structure FontCache where
  fontDict : List (String × FaceInst)
  nextId : Nat
deriving DecidableEq

/-- Python `str(bool)`. -/
def pyBool (b : Bool) : String := if b then "True" else "False"

/-- `key = '%s-%s-%s-%s' % (face, size, bold, italic)`. -/
def fontKey (family : String) (size : Nat) (bold italic : Bool) : String :=
  family ++ "-" ++ toString size ++ "-" ++ pyBool bold ++ "-" ++ pyBool italic

/-- `_load_font(face, size, bold, italic)` with the resolver `find_font`
passed as a parameter (`none` models `FontNotFoundError`).  Returns the
result, the cache state after the call, and the effects performed. -/
def load_font (find_font : String → Nat → Bool → Bool → Option String)
    (st : FontCache) (family : String) (size : Nat) (bold italic : Bool) :
    Except FontError FaceInst × FontCache × List FontEffect :=
  let key := fontKey family size bold italic
  match dictGet st.fontDict key with
  | some font => (.ok font, st, [])
  | none =>
    match find_font family size bold italic with
    | none => (.error .fontNotFoundError, st, [.resolve family size bold italic])
    | some fname =>
      let font : FaceInst := ⟨st.nextId, fname⟩
      (.ok font, ⟨dictSet st.fontDict key font, st.nextId + 1⟩,
        [.resolve family size bold italic, .construct fname])

/-- The expected concatenated kerning-assignment trace of loading a
character list into a dict whose key set is `S`. -/
def expectedTrace (S : List Char) : List Char → KernTrace
  | [] => []
  | c :: cs => sweepTrace c (S ++ [c]) ++ expectedTrace (S ++ [c]) cs

/-- The kerning keys of the glyph stored at `c`. -/
def kerningKeys (d : GlyphDict) (c : Char) : Option (List Char) :=
  (dictGet d c).map fun g => g.kerning.map Prod.fst

/-! ### Concrete fixtures used by witnesses and counterexamples -/

/-- A face whose every glyph slot is empty and whose kerning is zero. -/
def emptySlot : GlyphSlot := ⟨[], 0, 0, 0, 0, 0⟩

def face₀ : FaceData := ⟨fun _ => some emptySlot, fun _ _ => 0⟩

/-- A face that fails to load every glyph. -/
def faceNone : FaceData := ⟨fun _ => none, fun _ _ => 0⟩

def gDummy : Glyph := ⟨'A', (0, 0), [], 0, []⟩

def dA : GlyphDict := [('A', gDummy)]

/-! ### Association-list (Python dict) lemmas -/

@[simp] theorem keysOf_nil {κ α : Type} : keysOf ([] : List (κ × α)) = [] := rfl

@[simp] theorem keysOf_cons {κ α : Type} (p : κ × α) (d : List (κ × α)) :
    keysOf (p :: d) = p.1 :: keysOf d := rfl

section DictLemmas

variable {κ α : Type} [DecidableEq κ]

@[simp] theorem dictGet_dictSet_self (d : List (κ × α)) (k : κ) (v : α) :
    dictGet (dictSet d k v) k = some v := by
  induction d with
  | nil => simp [dictGet, dictSet]
  | cons p rest ih =>
    obtain ⟨k', v'⟩ := p
    by_cases h : k' = k
    · simp [dictGet, dictSet, h]
    · simp [dictGet, dictSet, h, ih]

theorem dictGet_dictSet_ne (d : List (κ × α)) (k k' : κ) (v : α) (h : k ≠ k') :
    dictGet (dictSet d k v) k' = dictGet d k' := by
  induction d with
  | nil => simp [dictGet, dictSet, h]
  | cons p rest ih =>
    obtain ⟨k₀, v₀⟩ := p
    by_cases h₀ : k₀ = k
    · subst h₀; simp [dictGet, dictSet, h]
    · simp only [dictSet, if_neg h₀, dictGet]
      by_cases h₁ : k₀ = k'
      · simp [h₁]
      · simp [h₁, ih]

theorem keysOf_dictSet_of_mem {d : List (κ × α)} {k : κ} (v : α) (h : k ∈ keysOf d) :
    keysOf (dictSet d k v) = keysOf d := by
  induction d with
  | nil => simp [keysOf] at h
  | cons p rest ih =>
    obtain ⟨k₀, v₀⟩ := p
    by_cases h₀ : k₀ = k
    · simp [dictSet, h₀]
    · simp only [keysOf_cons, List.mem_cons] at h
      rcases h with h | h
      · exact absurd h.symm h₀
      · simp [dictSet, h₀, ih h]

theorem keysOf_dictSet_of_not_mem {d : List (κ × α)} {k : κ} (v : α) (h : k ∉ keysOf d) :
    keysOf (dictSet d k v) = keysOf d ++ [k] := by
  induction d with
  | nil => simp [dictSet, keysOf]
  | cons p rest ih =>
    obtain ⟨k₀, v₀⟩ := p
    simp only [keysOf_cons, List.mem_cons] at h
    push_neg at h
    simp [dictSet, Ne.symm h.1, ih h.2]

theorem dictGet_eq_none_iff {d : List (κ × α)} {k : κ} :
    dictGet d k = none ↔ k ∉ keysOf d := by
  induction d with
  | nil => simp [dictGet, keysOf]
  | cons p rest ih =>
    obtain ⟨k₀, v₀⟩ := p
    by_cases h : k₀ = k
    · simp [dictGet, h]
    · simp [dictGet, h, ih, Ne.symm h]

theorem dictGet_isSome_of_mem {d : List (κ × α)} {k : κ} (h : k ∈ keysOf d) :
    ∃ v, dictGet d k = some v := by
  rcases hv : dictGet d k with _ | v
  · exact absurd (dictGet_eq_none_iff.mp hv) (not_not_intro h)
  · exact ⟨v, rfl⟩

theorem nodup_keysOf_dictSet {d : List (κ × α)} {k : κ} (v : α)
    (h : (keysOf d).Nodup) : (keysOf (dictSet d k v)).Nodup := by
  by_cases hk : k ∈ keysOf d
  · rwa [keysOf_dictSet_of_mem v hk]
  · rw [keysOf_dictSet_of_not_mem v hk, List.nodup_append]
    exact ⟨h, List.nodup_singleton k,
      fun x hx hmem => hk ((List.mem_singleton.mp hmem) ▸ hx)⟩

theorem dictSet_dictSet_same (d : List (κ × α)) (k : κ) (v v' : α) :
    dictSet (dictSet d k v) k v' = dictSet d k v' := by
  induction d with
  | nil => simp [dictSet]
  | cons p rest ih =>
    obtain ⟨k₀, v₀⟩ := p
    by_cases h : k₀ = k
    · simp [dictSet, h]
    · simp [dictSet, h, ih]

theorem dictSet_fresh_append {d : List (κ × α)} {k : κ} (v : α) (h : k ∉ keysOf d) :
    dictSet d k v = d ++ [(k, v)] := by
  induction d with
  | nil => simp [dictSet]
  | cons p rest ih =>
    obtain ⟨k₀, v₀⟩ := p
    simp only [keysOf_cons, List.mem_cons] at h
    push_neg at h
    simp [dictSet, Ne.symm h.1, ih h.2]

theorem dictGet_map_pairs (ks : List κ) (f : κ → α) {k : κ} (h : k ∈ ks) :
    dictGet (ks.map fun o => (o, f o)) k = some (f k) := by
  induction ks with
  | nil => simp at h
  | cons o rest ih =>
    rw [List.mem_cons] at h
    by_cases ho : o = k
    · simp [dictGet, ho]
    · rcases h with h | h
      · exact absurd h.symm ho
      · simp [dictGet, ho, ih h]

theorem foldl_dictSet_fresh (f : κ → α) (ks : List κ) (d : List (κ × α))
    (hdisj : ∀ k ∈ ks, k ∉ keysOf d) (hnd : ks.Nodup) :
    ks.foldl (fun acc o => dictSet acc o (f o)) d = d ++ ks.map fun o => (o, f o) := by
  induction ks generalizing d with
  | nil => simp
  | cons o rest ih =>
    simp only [List.foldl_cons, List.map_cons]
    rw [dictSet_fresh_append (f o) (hdisj o (List.mem_cons_self o rest))]
    rw [ih (d ++ [(o, f o)])]
    · simp
    · intro k hk
      have hne : k ≠ o := fun e => (List.nodup_cons.mp hnd).1 (e ▸ hk)
      have hkeys : keysOf (d ++ [(o, f o)]) = keysOf d ++ [o] := by simp [keysOf]
      rw [hkeys, List.mem_append]
      rintro (hm | hm)
      · exact hdisj k (List.mem_cons_of_mem o hk) hm
      · exact hne (List.mem_singleton.mp hm)
    · exact (List.nodup_cons.mp hnd).2

end DictLemmas

/-! ### `kernSet` lemmas -/

@[simp] theorem keysOf_kernSet (d : GlyphDict) (owner key : Char) (v : ℚ) :
    keysOf (kernSet d owner key v) = keysOf d := by
  induction d with
  | nil => rfl
  | cons p rest ih =>
    obtain ⟨k₀, g₀⟩ := p
    by_cases h : k₀ = owner <;> simp [kernSet, h, ih]

theorem dictGet_kernSet_self (d : GlyphDict) (owner key : Char) (v : ℚ) :
    dictGet (kernSet d owner key v) owner =
      (dictGet d owner).map fun g => { g with kerning := dictSet g.kerning key v } := by
  induction d with
  | nil => rfl
  | cons p rest ih =>
    obtain ⟨k₀, g₀⟩ := p
    by_cases h : k₀ = owner
    · simp [kernSet, dictGet, h]
    · simp [kernSet, dictGet, h, ih]

theorem dictGet_kernSet_ne (d : GlyphDict) (owner key : Char) (v : ℚ) {c : Char}
    (h : c ≠ owner) : dictGet (kernSet d owner key v) c = dictGet d c := by
  induction d with
  | nil => rfl
  | cons p rest ih =>
    obtain ⟨k₀, g₀⟩ := p
    by_cases h₀ : k₀ = owner
    · subst h₀
      simp [kernSet, dictGet, Ne.symm h, ih]
    · by_cases h₁ : k₀ = c
      · simp [kernSet, dictGet, h₀, h₁, h]
      · simp [kernSet, dictGet, h₀, h₁, ih]

/-! ### Kerning-sweep characterization -/

theorem kernSweep_nil (face : FaceData) (c : Char) (d : GlyphDict) :
    kernSweep face c [] d = d := rfl

theorem kernSweep_cons (face : FaceData) (c o : Char) (ks : List Char) (d : GlyphDict) :
    kernSweep face c (o :: ks) d =
      kernSweep face c ks
        (kernSet (kernSet d c o ((face.kern o c : ℚ) / 64)) o c ((face.kern c o : ℚ) / 64)) := rfl

/-- The updates the sweep applies to the kerning map of the newly inserted
glyph itself, one iterated key at a time: `[o] := kern(o, c) / 64`, and for
`o = c` additionally `[c] := kern(c, c) / 64`. -/
def kernAccum (face : FaceData) (c : Char) (ker : List (Char × ℚ)) :
    List Char → List (Char × ℚ)
  | [] => ker
  | o :: ks =>
    let ker1 := dictSet ker o ((face.kern o c : ℚ) / 64)
    kernAccum face c (if o = c then dictSet ker1 c ((face.kern c c : ℚ) / 64) else ker1) ks

theorem dictGet_kernSweep_self (face : FaceData) (c : Char) (ks : List Char) (d : GlyphDict) :
    dictGet (kernSweep face c ks d) c =
      (dictGet d c).map fun g => { g with kerning := kernAccum face c g.kerning ks } := by
  induction ks generalizing d with
  | nil =>
    rw [kernSweep_nil]
    cases dictGet d c <;> simp [kernAccum]
  | cons o ks ih =>
    rw [kernSweep_cons, ih]
    by_cases ho : o = c
    · subst ho
      rw [dictGet_kernSet_self, dictGet_kernSet_self]
      cases dictGet d o <;> simp [kernAccum]
    · rw [dictGet_kernSet_ne _ _ _ _ (Ne.symm ho), dictGet_kernSet_self]
      cases dictGet d c <;> simp [kernAccum, ho]

theorem dictGet_kernSweep_other (face : FaceData) (c : Char) (ks : List Char) (d : GlyphDict)
    {x : Char} (hx : x ≠ c) (hnd : ks.Nodup) :
    dictGet (kernSweep face c ks d) x =
      if x ∈ ks then
        (dictGet d x).map fun g =>
          { g with kerning := dictSet g.kerning c ((face.kern c x : ℚ) / 64) }
      else dictGet d x := by
  revert hnd
  induction ks generalizing d with
  | nil =>
    intro hnd
    simp [kernSweep_nil]
  | cons o ks ih =>
    intro hnd
    rw [kernSweep_cons, ih _ (List.nodup_cons.mp hnd).2]
    by_cases hxo : x = o
    · subst hxo
      have hnotin : x ∉ ks := (List.nodup_cons.mp hnd).1
      rw [if_neg hnotin, if_pos (List.mem_cons_self x ks),
        dictGet_kernSet_self, dictGet_kernSet_ne _ _ _ _ hx]
    · have hstep : dictGet (kernSet (kernSet d c o ((face.kern o c : ℚ) / 64)) o c
          ((face.kern c o : ℚ) / 64)) x = dictGet d x := by
        rw [dictGet_kernSet_ne _ _ _ _ hxo, dictGet_kernSet_ne _ _ _ _ hx]
      rw [hstep]
      simp [List.mem_cons, hxo]

theorem kernAccum_eq_foldl (face : FaceData) (c : Char) (ker : List (Char × ℚ))
    (ks : List Char) :
    kernAccum face c ker ks =
      ks.foldl (fun ker o => dictSet ker o ((face.kern o c : ℚ) / 64)) ker := by
  induction ks generalizing ker with
  | nil => rfl
  | cons o ks ih =>
    by_cases ho : o = c
    · subst ho
      simp [kernAccum, dictSet_dictSet_same, ih]
    · simp only [kernAccum, if_neg ho, List.foldl_cons, ih]

theorem kernAccum_nil_eq (face : FaceData) (c : Char) (ks : List Char) (hnd : ks.Nodup) :
    kernAccum face c [] ks = ks.map fun o => (o, (face.kern o c : ℚ) / 64) := by
  rw [kernAccum_eq_foldl]
  simpa using foldl_dictSet_fresh (fun o => ((face.kern o c : ℚ) / 64)) ks [] (by simp) hnd

@[simp] theorem keysOf_kernSweep (face : FaceData) (c : Char) (ks : List Char) (d : GlyphDict) :
    keysOf (kernSweep face c ks d) = keysOf d := by
  induction ks generalizing d with
  | nil => rfl
  | cons o ks ih => rw [kernSweep_cons, ih, keysOf_kernSet, keysOf_kernSet]

/-- Effect of the full insert-then-sweep step of `_load_glyph` on the dict,
for a freshly built glyph `g0` (empty kerning map): the inserted glyph's
kerning map is rebuilt over all keys of the post-insertion dict, and every
other glyph gains exactly the entry for `c`. -/
theorem sweep_inserted (face : FaceData) (c : Char) (d : GlyphDict) (g0 : Glyph)
    (hker : g0.kerning = []) (hnd : (keysOf d).Nodup) :
    dictGet (kernSweep face c (keysOf (dictSet d c g0)) (dictSet d c g0)) c =
      some { g0 with
        kerning := (keysOf (dictSet d c g0)).map fun o => (o, (face.kern o c : ℚ) / 64) } ∧
    (∀ o, o ∈ keysOf d → o ≠ c →
      dictGet (kernSweep face c (keysOf (dictSet d c g0)) (dictSet d c g0)) o =
        (dictGet d o).map fun go =>
          { go with kerning := dictSet go.kerning c ((face.kern c o : ℚ) / 64) }) := by
  have hnd0 : (keysOf (dictSet d c g0)).Nodup := nodup_keysOf_dictSet _ hnd
  constructor
  · rw [dictGet_kernSweep_self, dictGet_dictSet_self, Option.map_some', hker,
      kernAccum_nil_eq _ _ _ hnd0]
  · intro o ho hoc
    have hmem : o ∈ keysOf (dictSet d c g0) := by
      by_cases hc : c ∈ keysOf d
      · rwa [keysOf_dictSet_of_mem _ hc]
      · rw [keysOf_dictSet_of_not_mem _ hc]
        exact List.mem_append_left _ ho
    rw [dictGet_kernSweep_other face c _ _ hoc hnd0, if_pos hmem,
      dictGet_dictSet_ne _ _ _ _ (Ne.symm hoc)]

/-- Complete characterization of a successful `_load_glyph` call on a dict
with unique keys: the key set after the call, the executed kerning trace,
the freshly built glyph stored at `c`, and the update applied to every
other glyph already present. -/
theorem load_glyph_ok (face : FaceData) (c : Char) (d : GlyphDict)
    (hnd : (keysOf d).Nodup) {d' : GlyphDict} {tr : KernTrace}
    (h : load_glyph face c d = (.ok (), d', tr)) :
    keysOf d' = (if c ∈ keysOf d then keysOf d else keysOf d ++ [c]) ∧
    tr = sweepTrace c (keysOf d') ∧
    (∃ g, dictGet d' c = some g ∧ g.char = c ∧
      g.kerning = (keysOf d').map fun o => (o, (face.kern o c : ℚ) / 64)) ∧
    (∀ o, o ∈ keysOf d → o ≠ c →
      dictGet d' o = (dictGet d o).map fun go =>
        { go with kerning := dictSet go.kerning c ((face.kern c o : ℚ) / 64) }) := by
  rcases hslot : face.glyphs c with _ | slot
  · simp [load_glyph, hslot] at h
  rcases hbmp : reshape_bitmap slot.buffer slot.width slot.rows with _ | bmp
  · simp [load_glyph, hslot, hbmp] at h
  simp only [load_glyph, hslot, hbmp, Prod.mk.injEq] at h
  obtain ⟨-, hd', htr⟩ := h
  subst hd' htr
  obtain ⟨hself, hother⟩ := sweep_inserted face c d
    { char := c, offset := (slot.bitmapLeft, slot.bitmapTop), bitmap := bmp,
      advance := (slot.advanceX : ℚ) / 64, kerning := [] } rfl hnd
  have hkeys0 : keysOf (dictSet d c
      { char := c, offset := (slot.bitmapLeft, slot.bitmapTop), bitmap := bmp,
        advance := (slot.advanceX : ℚ) / 64, kerning := ([] : List (Char × ℚ)) }) =
      (if c ∈ keysOf d then keysOf d else keysOf d ++ [c]) := by
    by_cases hc : c ∈ keysOf d
    · rw [if_pos hc, keysOf_dictSet_of_mem _ hc]
    · rw [if_neg hc, keysOf_dictSet_of_not_mem _ hc]
  refine ⟨?_, ?_, ?_, ?_⟩
  · rw [keysOf_kernSweep]
    exact hkeys0
  · rw [keysOf_kernSweep]
  · refine ⟨_, hself, rfl, ?_⟩
    rw [keysOf_kernSweep]
  · exact hother

/-! ### Loading sequences: key sets and traces -/

theorem load_glyphs_from_ok (face : FaceData) (cs : List Char) :
    ∀ (d d' : GlyphDict) (tr : KernTrace),
      (keysOf d ++ cs).Nodup →
      load_glyphs_from face d cs = .ok (d', tr) →
      keysOf d' = keysOf d ++ cs ∧ tr = expectedTrace (keysOf d) cs := by
  induction cs with
  | nil =>
    intro d d' tr hnd h
    simp only [load_glyphs_from, Except.ok.injEq, Prod.mk.injEq] at h
    obtain ⟨h1, h2⟩ := h
    subst h1 h2
    simp [expectedTrace]
  | cons c cs ih =>
    intro d d' tr hnd h
    rcases hg : load_glyph face c d with ⟨res, d1, tr1⟩
    rcases res with e | u
    · simp [load_glyphs_from, hg] at h
    rcases u
    rcases hrest : load_glyphs_from face d1 cs with e2 | ⟨d2, tr2⟩
    · simp [load_glyphs_from, hg, hrest] at h
    simp only [load_glyphs_from, hg, hrest, Except.ok.injEq, Prod.mk.injEq] at h
    obtain ⟨h1, h2⟩ := h
    subst h1 h2
    have hndd : (keysOf d).Nodup := (List.nodup_append.mp hnd).1
    have hcd : c ∉ keysOf d := fun hm =>
      (List.nodup_append.mp hnd).2.2 hm (List.mem_cons_self c cs)
    obtain ⟨hkeys1, htr1, -, -⟩ := load_glyph_ok face c d hndd hg
    rw [if_neg hcd] at hkeys1
    have hnd1 : (keysOf d1 ++ cs).Nodup := by
      rw [hkeys1, List.append_assoc, List.singleton_append]
      exact hnd
    obtain ⟨hkeys2, htr2⟩ := ih d1 d2 tr2 hnd1 hrest
    constructor
    · rw [hkeys2, hkeys1, List.append_assoc, List.singleton_append]
    · rw [htr1, htr2, hkeys1, expectedTrace]

/-- Kerning-completeness invariant through a load sequence: when every glyph
of `d` has kerning entries for exactly the keys of `d`, the same holds of
the dict after loading fresh characters `cs`. -/
theorem load_glyphs_from_complete (face : FaceData) (cs : List Char) :
    ∀ (d d' : GlyphDict) (tr : KernTrace),
      (keysOf d ++ cs).Nodup →
      (∀ o g, dictGet d o = some g → g.kerning.map Prod.fst = keysOf d) →
      load_glyphs_from face d cs = .ok (d', tr) →
      ∀ o g, dictGet d' o = some g → g.kerning.map Prod.fst = keysOf d' := by
  induction cs with
  | nil =>
    intro d d' tr hnd hinv h
    simp only [load_glyphs_from, Except.ok.injEq, Prod.mk.injEq] at h
    obtain ⟨h1, h2⟩ := h
    subst h1
    exact hinv
  | cons c cs ih =>
    intro d d' tr hnd hinv h
    rcases hg : load_glyph face c d with ⟨res, d1, tr1⟩
    rcases res with e | u
    · simp [load_glyphs_from, hg] at h
    rcases u
    rcases hrest : load_glyphs_from face d1 cs with e2 | ⟨d2, tr2⟩
    · simp [load_glyphs_from, hg, hrest] at h
    simp only [load_glyphs_from, hg, hrest, Except.ok.injEq, Prod.mk.injEq] at h
    obtain ⟨h1, h2⟩ := h
    subst h1
    have hndd : (keysOf d).Nodup := (List.nodup_append.mp hnd).1
    have hcd : c ∉ keysOf d := fun hm =>
      (List.nodup_append.mp hnd).2.2 hm (List.mem_cons_self c cs)
    obtain ⟨hkeys1, -, ⟨gc, hgc, -, hgcker⟩, hother⟩ := load_glyph_ok face c d hndd hg
    rw [if_neg hcd] at hkeys1
    have hnd1 : (keysOf d1 ++ cs).Nodup := by
      rw [hkeys1, List.append_assoc, List.singleton_append]
      exact hnd
    have hinv1 : ∀ o g, dictGet d1 o = some g → g.kerning.map Prod.fst = keysOf d1 := by
      intro o g hget
      by_cases hoc : o = c
      · subst hoc
        rw [hgc, Option.some.injEq] at hget
        subst hget
        simp [hgcker, List.map_map, Function.comp_def]
      · by_cases hod : o ∈ keysOf d
        · rw [hother o hod hoc] at hget
          obtain ⟨g0, hg0, hupd⟩ := Option.map_eq_some'.mp hget
          subst hupd
          have hg0ker : keysOf g0.kerning = keysOf d := hinv o g0 hg0
          have hcker : c ∉ keysOf g0.kerning := by rw [hg0ker]; exact hcd
          show keysOf (dictSet g0.kerning c _) = _
          rw [keysOf_dictSet_of_not_mem _ hcker, hg0ker, hkeys1]
        · have : o ∉ keysOf d1 := by
            rw [hkeys1, List.mem_append]
            rintro (hm | hm)
            · exact hod hm
            · exact hoc (List.mem_singleton.mp hm)
          rw [dictGet_eq_none_iff.mpr this] at hget
          exact absurd hget (by simp)
    exact ih d1 d2 tr2 hnd1 hinv1 hrest

/-! ### Counting kerning assignments in a trace -/

theorem count_sweepTrace (c : Char) (ks : List Char) (x y : Char) :
    (sweepTrace c ks).count (x, y) =
      (if c = x then ks.count y else 0) + (if c = y then ks.count x else 0) := by
  induction ks with
  | nil => simp [sweepTrace]
  | cons o ks ih =>
    have hc : sweepTrace c (o :: ks) = (c, o) :: (o, c) :: sweepTrace c ks := by
      simp [sweepTrace]
    rw [hc, List.count_cons, List.count_cons, ih, List.count_cons, List.count_cons]
    simp only [beq_iff_eq, Prod.mk.injEq]
    by_cases hcx : c = x <;> by_cases hcy : c = y <;>
      by_cases hoy : o = y <;> by_cases hox : o = x <;>
      (simp_all; try omega)

theorem count_expectedTrace_left (a b : Char) (cs : List Char) :
    ∀ S : List Char, b ∉ S → b ∉ cs →
      (expectedTrace S cs).count (b, a) = 0 ∧ (expectedTrace S cs).count (a, b) = 0 := by
  induction cs with
  | nil =>
    intro S _ _
    simp [expectedTrace]
  | cons c cs ih =>
    intro S hbS hbcs
    have hcb : c ≠ b := fun e => hbcs (e ▸ List.mem_cons_self c cs)
    have hbS1 : b ∉ S ++ [c] := by
      rw [List.mem_append]
      rintro (hm | hm)
      · exact hbS hm
      · exact hcb (List.mem_singleton.mp hm).symm
    have hbcs1 : b ∉ cs := fun hm => hbcs (List.mem_cons_of_mem c hm)
    obtain ⟨ih1, ih2⟩ := ih (S ++ [c]) hbS1 hbcs1
    have hcount : (S ++ [c]).count b = 0 := List.count_eq_zero.mpr hbS1
    rw [expectedTrace]
    constructor
    · rw [List.count_append, count_sweepTrace, ih1, hcount]
      simp [hcb]
    · rw [List.count_append, count_sweepTrace, ih2, hcount]
      simp [hcb]

theorem count_expectedTrace_both (x y : Char) (cs : List Char) :
    ∀ S : List Char, x ∉ cs → y ∉ cs → (expectedTrace S cs).count (x, y) = 0 := by
  induction cs with
  | nil =>
    intro S _ _
    simp [expectedTrace]
  | cons c cs ih =>
    intro S hx hy
    have hcx : c ≠ x := fun e => hx (e ▸ List.mem_cons_self c cs)
    have hcy : c ≠ y := fun e => hy (e ▸ List.mem_cons_self c cs)
    rw [expectedTrace, List.count_append, count_sweepTrace,
      ih (S ++ [c]) (fun hm => hx (List.mem_cons_of_mem c hm))
        (fun hm => hy (List.mem_cons_of_mem c hm))]
    simp [hcx, hcy]

theorem expectedTrace_append (cs1 : List Char) :
    ∀ (S cs2 : List Char),
      expectedTrace S (cs1 ++ cs2) =
        expectedTrace S cs1 ++ expectedTrace (S ++ cs1) cs2 := by
  induction cs1 with
  | nil =>
    intro S cs2
    simp [expectedTrace]
  | cons c cs1 ih =>
    intro S cs2
    rw [List.cons_append, expectedTrace, expectedTrace, ih (S ++ [c]) cs2,
      List.append_assoc, List.append_assoc, List.singleton_append]

/-- Counts of the two directed kerning assignments for a pair `(a, b)` with
`a` loaded before `b`: none before `b`'s insertion, exactly one each by the
end of `b`'s insertion, and still exactly one each at the end. -/
theorem count_expectedTrace_pair (l1 l2 : List Char) (a b : Char)
    (hnd : (l1 ++ b :: l2).Nodup) (ha : a ∈ l1) :
    (expectedTrace [] (l1 ++ b :: l2)).count (b, a) = 1 ∧
    (expectedTrace [] (l1 ++ b :: l2)).count (a, b) = 1 ∧
    (expectedTrace [] l1).count (b, a) = 0 ∧
    (expectedTrace [] l1).count (a, b) = 0 ∧
    (expectedTrace [] (l1 ++ [b])).count (b, a) = 1 ∧
    (expectedTrace [] (l1 ++ [b])).count (a, b) = 1 := by
  obtain ⟨hl1, hrest, hdisj⟩ := List.nodup_append.mp hnd
  have hbl2 : b ∉ l2 := (List.nodup_cons.mp hrest).1
  have hbl1 : b ∉ l1 := fun hm => hdisj hm (List.mem_cons_self b l2)
  have hab : a ≠ b := fun e => hdisj ha (e ▸ List.mem_cons_self b l2)
  have hal2 : a ∉ l2 := fun hm => hdisj ha (List.mem_cons_of_mem b hm)
  obtain ⟨hz1, hz2⟩ := count_expectedTrace_left a b l1 [] (by simp) hbl1
  have hsweep_ba : (sweepTrace b (l1 ++ [b])).count (b, a) = 1 := by
    rw [count_sweepTrace, if_pos rfl, if_neg (Ne.symm hab), List.count_append,
      List.count_eq_one_of_mem hl1 ha, List.count_eq_zero_of_not_mem (by simpa using hab)]
  have hsweep_ab : (sweepTrace b (l1 ++ [b])).count (a, b) = 1 := by
    rw [count_sweepTrace, if_pos rfl, if_neg (Ne.symm hab), List.count_append,
      List.count_eq_one_of_mem hl1 ha, List.count_eq_zero_of_not_mem (by simpa using hab)]
  have hmid : expectedTrace [] (l1 ++ [b]) =
      expectedTrace [] l1 ++ sweepTrace b (l1 ++ [b]) := by
    rw [expectedTrace_append l1 [] [b], expectedTrace, expectedTrace, List.nil_append,
      List.append_nil]
  have hfull : expectedTrace [] (l1 ++ b :: l2) =
      expectedTrace [] l1 ++ (sweepTrace b (l1 ++ [b]) ++ expectedTrace (l1 ++ [b]) l2) := by
    rw [expectedTrace_append l1 [] (b :: l2), expectedTrace, List.nil_append]
  have htail_ba : (expectedTrace (l1 ++ [b]) l2).count (b, a) = 0 :=
    count_expectedTrace_both b a l2 (l1 ++ [b]) hbl2 hal2
  have htail_ab : (expectedTrace (l1 ++ [b]) l2).count (a, b) = 0 :=
    count_expectedTrace_both a b l2 (l1 ++ [b]) hal2 hbl2
  refine ⟨?_, ?_, hz1, hz2, ?_, ?_⟩
  · rw [hfull, List.count_append, List.count_append, hz1, hsweep_ba, htail_ba]
  · rw [hfull, List.count_append, List.count_append, hz2, hsweep_ab, htail_ab]
  · rw [hmid, List.count_append, hz1, hsweep_ba]
  · rw [hmid, List.count_append, hz2, hsweep_ab]

/-! ### Bitmap reshaping -/

/-- On a buffer laid out as `rows` rows of `stride ≥ width` samples, the
reshape-and-truncate step of `_load_glyph` succeeds and keeps exactly the
first `width` samples of each native row. -/
theorem reshape_bitmap_strided (buffer : List Nat) (width rows stride : Nat)
    (hs : width ≤ stride) (hl : buffer.length = rows * stride) :
    reshape_bitmap buffer width rows =
      some ((List.range rows).map fun i =>
        ((buffer.drop (i * stride)).take width).map (· % 256)) := by
  by_cases h0 : buffer.length = 0
  · obtain rfl : buffer = [] := List.length_eq_zero.mp h0
    simp [reshape_bitmap]
  · have hpos : 0 < buffer.length := Nat.pos_of_ne_zero h0
    have hrows : rows ≠ 0 := by
      rintro rfl
      rw [Nat.zero_mul] at hl
      exact h0 hl
    have hc1 : ¬(0 < buffer.length ∧ rows = 0) := fun h => hrows h.2
    have hc2 : (if 0 < buffer.length then buffer.length / rows else 0) = stride := by
      rw [if_pos hpos, hl, Nat.mul_div_cancel_left _ (Nat.pos_of_ne_zero hrows)]
    simp only [reshape_bitmap]
    rw [if_neg hc1, hc2, if_pos hl.symm]
    simp [List.take_take, min_eq_left hs]

/-! ### Further concrete fixtures -/

/-- The glyph dict after loading `['A', 'V', 'T']` into an empty dict of
`face₀`. -/
def scenarioDict : GlyphDict :=
  ((load_glyphs face₀ ['A', 'V', 'T']).toOption.getD ([], [])).1

/-- The kerning-assignment trace of the same scenario. -/
def scenarioTrace : KernTrace :=
  ((load_glyphs face₀ ['A', 'V', 'T']).toOption.getD ([], [])).2

/-! ### Claim theorems -/

/-- C1: Kerning completeness.  After `_load_glyph` inserts the glyph for a
fresh character `c` into a dict already holding glyphs for `O₁ … Oₙ`, for
every pre-existing `o` both `glyphs[c].kerning[o]` and
`glyphs[o].kerning[c]` exist and hold the converted kerning of the ordered
pairs `(o, c)` and `(c, o)` respectively; the entry is stored whatever
value (zero included) the rasterizer reports. -/
theorem kerning_completeness (face : FaceData) (c : Char) (d : GlyphDict)
    (hnd : (keysOf d).Nodup) (hc : c ∉ keysOf d) {d' : GlyphDict} {tr : KernTrace}
    (h : load_glyph face c d = (.ok (), d', tr)) (o : Char) (ho : o ∈ keysOf d) :
    ∃ g go, dictGet d' c = some g ∧ dictGet d' o = some go ∧
      dictGet g.kerning o = some ((face.kern o c : ℚ) / 64) ∧
      dictGet go.kerning c = some ((face.kern c o : ℚ) / 64) := by
  obtain ⟨hkeys, -, ⟨g, hg, -, hgker⟩, hother⟩ := load_glyph_ok face c d hnd h
  rw [if_neg hc] at hkeys
  have hoc : o ≠ c := fun e => hc (e ▸ ho)
  have ho' : o ∈ keysOf d' := by
    rw [hkeys]
    exact List.mem_append_left _ ho
  obtain ⟨go0, hgo0⟩ := dictGet_isSome_of_mem ho
  refine ⟨g, { go0 with kerning := dictSet go0.kerning c ((face.kern c o : ℚ) / 64) },
    hg, ?_, ?_, ?_⟩
  · rw [hother o ho hoc, hgo0, Option.map_some']
  · rw [hgker]
    exact dictGet_map_pairs _ _ ho'
  · exact dictGet_dictSet_self _ _ _

/-- Witness for C1: loading `'V'` into a dict holding a glyph for `'A'`. -/
theorem kerning_completeness_witness :
    (keysOf dA).Nodup ∧ 'V' ∉ keysOf dA ∧ 'A' ∈ keysOf dA ∧
    (∃ g go, dictGet (load_glyph face₀ 'V' dA).2.1 'V' = some g ∧
      dictGet (load_glyph face₀ 'V' dA).2.1 'A' = some go ∧
      dictGet g.kerning 'A' = some ((face₀.kern 'A' 'V' : ℚ) / 64) ∧
      dictGet go.kerning 'V' = some ((face₀.kern 'V' 'A' : ℚ) / 64)) :=
  ⟨by decide, by decide, by decide,
    kerning_completeness face₀ 'V' dA (by decide) (by decide) rfl 'A' (by decide)⟩

/-- C10: Self-kerning entry.  After `_load_glyph` inserts the glyph for `c`,
the sweep runs over the dict including the new glyph itself, so the new
glyph's kerning map holds an entry keyed by `c`. -/
theorem self_kerning_entry (face : FaceData) (c : Char) (d : GlyphDict)
    (hnd : (keysOf d).Nodup) {d' : GlyphDict} {tr : KernTrace}
    (h : load_glyph face c d = (.ok (), d', tr)) :
    ∃ g, dictGet d' c = some g ∧
      dictGet g.kerning c = some ((face.kern c c : ℚ) / 64) := by
  obtain ⟨hkeys, -, ⟨g, hg, -, hgker⟩, -⟩ := load_glyph_ok face c d hnd h
  have hc' : c ∈ keysOf d' := by
    rw [hkeys]
    by_cases hc : c ∈ keysOf d
    · rwa [if_pos hc]
    · rw [if_neg hc]
      exact List.mem_append_right _ (List.mem_singleton_self c)
  refine ⟨g, hg, ?_⟩
  rw [hgker]
  exact dictGet_map_pairs _ _ hc'

/-- Witness for C10: loading `'A'` into an empty dict. -/
theorem self_kerning_entry_witness :
    (keysOf ([] : GlyphDict)).Nodup ∧
    (∃ g, dictGet (load_glyph face₀ 'A' []).2.1 'A' = some g ∧
      dictGet g.kerning 'A' = some ((face₀.kern 'A' 'A' : ℚ) / 64)) :=
  ⟨by decide, self_kerning_entry face₀ 'A' [] (by decide) rfl⟩

/-- C2 counterexample: after inserting `'A'`, `'V'`, `'T'` in that order into
one empty font instance, every one of the three glyphs has kerning entries
for all three characters — itself included — so 9 directed entries in total,
not entries for exactly the two other characters (6 in total): the sweep of
`_load_glyph` runs after `glyphs_dict[char] = glyph` and therefore covers
the glyph just inserted as well. -/
theorem kerning_excludes_inserted_cex :
    load_glyphs face₀ ['A', 'V', 'T'] = .ok (scenarioDict, scenarioTrace) ∧
    kerningKeys scenarioDict 'A' = some ['A', 'V', 'T'] ∧
    kerningKeys scenarioDict 'V' = some ['A', 'V', 'T'] ∧
    kerningKeys scenarioDict 'T' = some ['A', 'V', 'T'] ∧
    (scenarioDict.map fun p => p.2.kerning.length).sum = 9 :=
  ⟨rfl, by decide, by decide, by decide, by decide⟩

/-- C2 amended: when `_load_glyph` inserts a glyph, kerning is computed for
every glyph in the dictionary *including* the one just inserted; after
loading distinct characters `cs` into one empty font instance, each glyph
has kerning entries for exactly the characters of `cs` (itself included, in
insertion order, none missing and none duplicated) — 9 directed entries for
three loaded characters. -/
theorem kerning_sweep_includes_self (face : FaceData) (cs : List Char) (hnd : cs.Nodup)
    {d : GlyphDict} {tr : KernTrace} (h : load_glyphs face cs = .ok (d, tr))
    (c : Char) (hc : c ∈ cs) :
    ∃ g, dictGet d c = some g ∧ g.kerning.map Prod.fst = cs := by
  have hkeys := (load_glyphs_from_ok face cs [] d tr (by simpa using hnd) h).1
  have hcomplete := load_glyphs_from_complete face cs [] d tr (by simpa using hnd)
    (by intro o g hg; simp [dictGet] at hg) h
  have hc' : c ∈ keysOf d := by
    rw [hkeys]
    simpa using hc
  obtain ⟨g, hg⟩ := dictGet_isSome_of_mem hc'
  refine ⟨g, hg, ?_⟩
  rw [hcomplete c g hg, hkeys]
  simp

/-- Witness for the amended C2 in the spec's own scenario. -/
theorem kerning_sweep_includes_self_witness :
    (['A', 'V', 'T'] : List Char).Nodup ∧ 'V' ∈ (['A', 'V', 'T'] : List Char) ∧
    (∃ g, dictGet scenarioDict 'V' = some g ∧
      g.kerning.map Prod.fst = ['A', 'V', 'T']) :=
  ⟨by decide, by decide,
    kerning_sweep_includes_self face₀ ['A', 'V', 'T'] (by decide) rfl 'V' (by decide)⟩

/-- C3 counterexample: `_load_glyph` contains no duplicate check — inserting
`'A'` into a dict that already holds a glyph for `'A'` succeeds (no
`DuplicateGlyphError` exists anywhere in the module) and the dictionary is
changed: the stored glyph's kerning map, empty before, now holds an entry. -/
theorem duplicate_insertion_cex :
    (load_glyph face₀ 'A' dA).1 = .ok () ∧
    kerningKeys dA 'A' = some [] ∧
    kerningKeys (load_glyph face₀ 'A' dA).2.1 'A' = some ['A'] :=
  ⟨rfl, by decide, by decide⟩

/-- C3 amended: when the glyphs dictionary already contains an entry for
`c`, `_load_glyph` does not fail; it silently replaces the stored glyph
with the freshly rasterized one — whose kerning map is rebuilt over all
current keys — and leaves the key set unchanged. -/
theorem duplicate_insertion_replaces (face : FaceData) (c : Char) (d : GlyphDict)
    (hnd : (keysOf d).Nodup) (hc : c ∈ keysOf d) {d' : GlyphDict} {tr : KernTrace}
    (h : load_glyph face c d = (.ok (), d', tr)) :
    keysOf d' = keysOf d ∧
    ∃ g, dictGet d' c = some g ∧ g.char = c ∧
      g.kerning = (keysOf d).map fun o => (o, (face.kern o c : ℚ) / 64) := by
  obtain ⟨hkeys, -, ⟨g, hg, hgchar, hgker⟩, -⟩ := load_glyph_ok face c d hnd h
  rw [if_pos hc] at hkeys
  refine ⟨hkeys, g, hg, hgchar, ?_⟩
  rw [hgker, hkeys]

/-- Witness for the amended C3: re-inserting `'A'` into `dA`. -/
theorem duplicate_insertion_replaces_witness :
    (keysOf dA).Nodup ∧ 'A' ∈ keysOf dA ∧
    (keysOf (load_glyph face₀ 'A' dA).2.1 = keysOf dA ∧
      ∃ g, dictGet (load_glyph face₀ 'A' dA).2.1 'A' = some g ∧ g.char = 'A' ∧
        g.kerning = (keysOf dA).map fun o => (o, (face₀.kern o 'A' : ℚ) / 64)) :=
  ⟨by decide, by decide,
    duplicate_insertion_replaces face₀ 'A' dA (by decide) (by decide) rfl⟩

/-- C4: Cache identity.  After a successful `_load_font` call, a second call
with the same key returns the very same font instance, performs no effect
(neither a `find_font` resolver call nor a `Face` construction), and leaves
the cache state exactly as it was after the first call. -/
theorem cache_identity (find_font : String → Nat → Bool → Bool → Option String)
    (st : FontCache) (family : String) (size : Nat) (bold italic : Bool)
    {font : FaceInst} {st1 : FontCache} {effs : List FontEffect}
    (h : load_font find_font st family size bold italic = (.ok font, st1, effs)) :
    load_font find_font st1 family size bold italic = (.ok font, st1, []) := by
  have hcached : dictGet st1.fontDict (fontKey family size bold italic) = some font := by
    rcases hget : dictGet st.fontDict (fontKey family size bold italic) with _ | f
    · rcases hfind : find_font family size bold italic with _ | fname
      · simp [load_font, hget, hfind] at h
      · simp only [load_font, hget, hfind, Prod.mk.injEq, Except.ok.injEq] at h
        obtain ⟨hf, hst, -⟩ := h
        subst hst
        rw [← hf]
        exact dictGet_dictSet_self _ _ _
    · simp only [load_font, hget, Prod.mk.injEq, Except.ok.injEq] at h
      obtain ⟨hf, hst, -⟩ := h
      subst hst hf
      exact hget
  simp [load_font, hcached]

def findFontStub : String → Nat → Bool → Bool → Option String :=
  fun _ _ _ _ => some "font.ttf"

def st₀ : FontCache := ⟨[], 0⟩

def font₁ : FaceInst := ⟨0, "font.ttf"⟩

def st₁ : FontCache := ⟨[(fontKey "Arial" 12 false false, font₁)], 1⟩

/-- Witness for C4: a first call that resolves and constructs, then the
second call hitting the cache. -/
theorem cache_identity_witness :
    load_font findFontStub st₀ "Arial" 12 false false =
      (.ok font₁, st₁, [.resolve "Arial" 12 false false, .construct "font.ttf"]) ∧
    load_font findFontStub st₁ "Arial" 12 false false = (.ok font₁, st₁, []) :=
  ⟨rfl, cache_identity findFontStub st₀ "Arial" 12 false false rfl⟩

/-- C5: Bitmap shape.  For a native buffer laid out with row stride at least
the logical width and length `rows * stride`, the stored bitmap is a
row-major grid of unsigned 8-bit values with exactly `rows` rows of exactly
`width` entries each, every row being the first `width` samples of the
corresponding native row (stride padding stripped). -/
theorem bitmap_shape (buffer : List Nat) (width rows stride : Nat)
    (hs : width ≤ stride) (hl : buffer.length = rows * stride) :
    ∃ bmp, reshape_bitmap buffer width rows = some bmp ∧
      bmp.length = rows ∧
      (∀ r ∈ bmp, r.length = width ∧ ∀ v ∈ r, v < 256) ∧
      bmp = (List.range rows).map fun i =>
        ((buffer.drop (i * stride)).take width).map (· % 256) := by
  refine ⟨_, reshape_bitmap_strided buffer width rows stride hs hl, by simp, ?_, rfl⟩
  intro r hr
  simp only [List.mem_map, List.mem_range] at hr
  obtain ⟨i, hi, rfl⟩ := hr
  constructor
  · rw [List.length_map, List.length_take, List.length_drop, hl]
    have hsub : rows * stride - i * stride = (rows - i) * stride :=
      (Nat.sub_mul rows i stride).symm
    have hone : 1 ≤ rows - i := by omega
    have hge : stride ≤ (rows - i) * stride := by
      calc stride = 1 * stride := (Nat.one_mul stride).symm
        _ ≤ (rows - i) * stride := Nat.mul_le_mul_right stride hone
    rw [hsub]
    omega
  · intro v hv
    simp only [List.mem_map] at hv
    obtain ⟨u, hu, rfl⟩ := hv
    exact Nat.mod_lt u (by omega)

/-- Witness for C5: a 2-row buffer with stride 3 truncated to width 2. -/
theorem bitmap_shape_witness :
    2 ≤ 3 ∧ ([1, 2, 3, 4, 5, 6] : List Nat).length = 2 * 3 ∧
    (∃ bmp, reshape_bitmap [1, 2, 3, 4, 5, 6] 2 2 = some bmp ∧
      bmp.length = 2 ∧ (∀ r ∈ bmp, r.length = 2 ∧ ∀ v ∈ r, v < 256) ∧
      bmp = (List.range 2).map fun i =>
        ((([1, 2, 3, 4, 5, 6] : List Nat).drop (i * 3)).take 2).map (· % 256)) :=
  ⟨by decide, by decide, bitmap_shape [1, 2, 3, 4, 5, 6] 2 2 3 (by decide) (by decide)⟩

/-- C6: Zero-height glyphs are handled totally.  With zero rows and hence an
empty buffer, the guarded stride computation (`bitmap.size // height if
bitmap.size > 0 else 0`) never divides by zero, and the stored bitmap has
zero rows. -/
theorem zero_height_total (width : Nat) :
    reshape_bitmap [] width 0 = some [] ∧
    ((reshape_bitmap [] width 0).map List.length) = some 0 :=
  ⟨rfl, rfl⟩

/-- C7: Failed font resolution commits no state.  When the key is not
cached and the resolver reports no file, `_load_font` propagates
`FontNotFoundError`, the cache state is returned unchanged, and no entry
exists for the key afterwards. -/
theorem failed_resolution_no_state
    (find_font : String → Nat → Bool → Bool → Option String)
    (st : FontCache) (family : String) (size : Nat) (bold italic : Bool)
    (hmiss : dictGet st.fontDict (fontKey family size bold italic) = none)
    (hfail : find_font family size bold italic = none) :
    load_font find_font st family size bold italic =
      (.error .fontNotFoundError, st, [.resolve family size bold italic]) ∧
    dictGet (load_font find_font st family size bold italic).2.1.fontDict
      (fontKey family size bold italic) = none := by
  have h1 : load_font find_font st family size bold italic =
      (.error .fontNotFoundError, st, [.resolve family size bold italic]) := by
    simp [load_font, hmiss, hfail]
  refine ⟨h1, ?_⟩
  rw [h1]
  exact hmiss

def findFontNone : String → Nat → Bool → Bool → Option String := fun _ _ _ _ => none

/-- Witness for C7: the spec's missing-font scenario. -/
theorem failed_resolution_no_state_witness :
    dictGet st₀.fontDict (fontKey "NoSuchFont-XYZ" 12 false false) = none ∧
    findFontNone "NoSuchFont-XYZ" 12 false false = none ∧
    (load_font findFontNone st₀ "NoSuchFont-XYZ" 12 false false =
      (.error .fontNotFoundError, st₀, [.resolve "NoSuchFont-XYZ" 12 false false]) ∧
    dictGet (load_font findFontNone st₀ "NoSuchFont-XYZ" 12 false false).2.1.fontDict
      (fontKey "NoSuchFont-XYZ" 12 false false) = none) :=
  ⟨rfl, rfl,
    failed_resolution_no_state findFontNone st₀ "NoSuchFont-XYZ" 12 false false rfl rfl⟩

/-- C8: Failed rasterization commits no state.  When the face cannot
produce a glyph for the character, `_load_glyph` propagates
`GlyphLoadError` and returns the glyphs dictionary unchanged, with no
kerning assignment executed. -/
theorem failed_rasterization_no_state (face : FaceData) (c : Char) (d : GlyphDict)
    (hfail : face.glyphs c = none) :
    load_glyph face c d = (.error .glyphLoadError, d, []) := by
  simp [load_glyph, hfail]

/-- Witness for C8: a face that fails to load every glyph. -/
theorem failed_rasterization_no_state_witness :
    faceNone.glyphs 'A' = none ∧
    load_glyph faceNone 'A' dA = (.error .glyphLoadError, dA, []) :=
  ⟨rfl, failed_rasterization_no_state faceNone 'A' dA rfl⟩

/-- C9: Write-once kerning.  For distinct characters `a` (loaded first, as
a member of `l1`) and `b` loaded second, each of the two directed kerning
entries for the pair is assigned exactly once over the whole load sequence:
zero times before `b`'s insertion, once by the end of `b`'s insertion, and
still exactly once at the end — no later insertion overwrites it. -/
theorem kerning_write_once (face : FaceData) (l1 l2 : List Char) (a b : Char)
    (hnd : (l1 ++ b :: l2).Nodup) (ha : a ∈ l1)
    {d : GlyphDict} {tr : KernTrace}
    (h : load_glyphs face (l1 ++ b :: l2) = .ok (d, tr)) :
    tr.count (b, a) = 1 ∧ tr.count (a, b) = 1 ∧
    (∀ d1 tr1, load_glyphs face l1 = .ok (d1, tr1) →
      tr1.count (b, a) = 0 ∧ tr1.count (a, b) = 0) ∧
    (∀ d2 tr2, load_glyphs face (l1 ++ [b]) = .ok (d2, tr2) →
      tr2.count (b, a) = 1 ∧ tr2.count (a, b) = 1) := by
  obtain ⟨hc1, hc2, hc3, hc4, hc5, hc6⟩ := count_expectedTrace_pair l1 l2 a b hnd ha
  obtain ⟨hl1, hrest, hdisj⟩ := List.nodup_append.mp hnd
  have hbl1 : b ∉ l1 := fun hm => hdisj hm (List.mem_cons_self b l2)
  have hndmid : (l1 ++ [b]).Nodup := by
    rw [List.nodup_append]
    exact ⟨hl1, List.nodup_singleton b,
      fun x hx hm => hbl1 ((List.mem_singleton.mp hm) ▸ hx)⟩
  have htr := (load_glyphs_from_ok face (l1 ++ b :: l2) [] d tr (by simpa using hnd) h).2
  refine ⟨?_, ?_, ?_, ?_⟩
  · rw [htr]
    exact hc1
  · rw [htr]
    exact hc2
  · intro d1 tr1 h1
    have htr1 := (load_glyphs_from_ok face l1 [] d1 tr1 (by simpa using hl1) h1).2
    rw [htr1]
    exact ⟨hc3, hc4⟩
  · intro d2 tr2 h2
    have htr2 := (load_glyphs_from_ok face (l1 ++ [b]) [] d2 tr2
      (by simpa using hndmid) h2).2
    rw [htr2]
    exact ⟨hc5, hc6⟩

/-- Witness for C9: the pair `('A', 'V')` in the three-character scenario. -/
theorem kerning_write_once_witness :
    ((['A'] ++ 'V' :: ['T']) : List Char).Nodup ∧ 'A' ∈ (['A'] : List Char) ∧
    scenarioTrace.count ('V', 'A') = 1 ∧ scenarioTrace.count ('A', 'V') = 1 := by
  have h : load_glyphs face₀ (['A'] ++ 'V' :: ['T']) = .ok (scenarioDict, scenarioTrace) :=
    rfl
  have hmain := kerning_write_once face₀ ['A'] ['T'] 'A' 'V' (by decide) (by decide) h
  exact ⟨by decide, by decide, hmain.1, hmain.2.1⟩

end Vispy
